import Mathlib

/-!
# Verification of the Hangman game state machine (`src/hangman.rs`)

Shallow embedding of the Rust program `hangman.rs`.  The embedding follows
the source:

* `HangmanGame` mirrors the Rust struct field by field.  `wrong_guesses` and
  `max_wrong` are Rust `i32`, modelled as `Int`; the only arithmetic the
  program performs on them is `wrong_guesses += 1`, which under Rust's
  checked (debug) semantics panics on overflow — modelled by returning
  `none` when the increment would exceed `i32::MAX`.
* The word bank is a Rust `HashMap` built with `HashMap::from`.  Key lookup
  is order-independent, so the map is embedded as the association list of
  the five inserted pairs.  Key *iteration* order (`word_bank.keys()`) is
  unspecified in Rust; `new` therefore takes the iteration order as an
  explicit parameter, an arbitrary permutation of the inserted keys.
* Rust operations that can panic are `Option`-valued: `words[2]` in `new`
  (out-of-bounds index), the write `display_word[i] = guess` in
  `process_guess` (out-of-bounds index), `wrong_guesses += 1` (checked
  overflow), and the byte slices `[0..1]` / `[len-1..]` in
  `reveal_partial_word` (out of bounds or not on a char boundary).
* Rust `String::len` is the UTF-8 byte count, embedded as `byteLen`.
-/

/-- Byte count of a character in UTF-8, as used by Rust `str::len`. -/
def charUtf8Len (c : Char) : Nat :=
  if c.toNat < 0x80 then 1
  else if c.toNat < 0x800 then 2
  else if c.toNat < 0x10000 then 3
  else 4

/-- Rust `String::len`: number of UTF-8 bytes of the string. -/
def byteLen (s : String) : Nat :=
  (s.toList.map charUtf8Len).sum

/-- The five `(word, description)` pairs inserted into the `HashMap` by
`HangmanGame::new` (`HashMap::from([...])`), in insertion order. -/
def bankList : List (String × String) :=
  [("RUST", "A systems programming language"),
   ("JAVA", "Write once, run anywhere"),
   ("SWIFT", "Apple\x27s programming language"),
   ("PYTHON", "Known for its simplicity"),
   ("GOLANG", "Created by Google")]

/-- The keys of the word bank, in insertion order.  A run of the program
iterates them in some unspecified permutation of this list. -/
def bankKeys : List String :=
  bankList.map Prod.fst

/-- The Rust struct `HangmanGame`. -/
structure HangmanGame where
  secret_word : String
  display_word : List Char
  guessed_letters : List Char
  wrong_guesses : Int
  max_wrong : Int
  word_bank : List (String × String)
deriving DecidableEq, Repr

/-- Rust `i32::MAX`: incrementing past this value panics under Rust's checked
arithmetic. -/
def intMax32 : Int := 2 ^ 31 - 1

namespace HangmanGame

/-- Constructor `HangmanGame::new`.  `order` is the key iteration order produced by
`word_bank.keys()` — unspecified for a Rust `HashMap`, hence a parameter.
`words[2]` panics (`none`) when the order has fewer than three entries;
the secret word is the element at index 2.  `display_word` is
`vec!['_'; secret_word.len()]` with `len()` the byte length. -/
def new (order : List String) : Option HangmanGame :=
  match order[2]? with
  | none => none
  | some w =>
    some { secret_word := w
           display_word := List.replicate (byteLen w) '_'
           guessed_letters := []
           wrong_guesses := 0
           max_wrong := 6
           word_bank := bankList }

/-- The `for (i, letter) in self.secret_word.chars().enumerate()` loop of
`process_guess`: walks the remaining characters `l` with current index `i`,
writing `disp[i] = guess` at each match (panicking — `none` — when such a
write is out of bounds, as `self.display_word[i] = guess` would) and
accumulating the `correct_guess` flag. -/
def guessLoop (guess : Char) : List Char → Nat → List Char → Bool →
    Option (List Char × Bool)
  | [], _, disp, correct => some (disp, correct)
  | letter :: rest, i, disp, correct =>
    if letter = guess then
      if i < disp.length then
        guessLoop guess rest (i + 1) (disp.set i guess) true
      else
        none
    else
      guessLoop guess rest (i + 1) disp correct

/-- Method `HangmanGame::process_guess`: pushes the guess onto `guessed_letters`,
runs the reveal loop over the secret word's characters, and increments
`wrong_guesses` when no position matched.  `none` models a panic: an
out-of-bounds `display_word[i]` write, or checked overflow of
`wrong_guesses += 1`. -/
def process_guess (g : HangmanGame) (guess : Char) :
    Option (HangmanGame × Bool) :=
  match guessLoop guess g.secret_word.toList 0 g.display_word false with
  | none => none
  | some (disp, correct) =>
    if correct then
      some ({ g with guessed_letters := g.guessed_letters ++ [guess]
                     display_word := disp }, true)
    else
      if intMax32 < g.wrong_guesses + 1 then
        none
      else
        some ({ g with guessed_letters := g.guessed_letters ++ [guess]
                       display_word := disp
                       wrong_guesses := g.wrong_guesses + 1 }, false)

/-- Method `HangmanGame::is_won`: `!self.display_word.contains(&'_')`. -/
def is_won (g : HangmanGame) : Bool :=
  !(g.display_word.contains '_')

/-- Method `HangmanGame::is_lost`: `self.wrong_guesses >= self.max_wrong`. -/
def is_lost (g : HangmanGame) : Bool :=
  g.max_wrong ≤ g.wrong_guesses

/-- The hint text printed by `display_game`: after 3 wrong guesses it prints
`self.word_bank.get(secret_word)` when present, otherwise nothing. -/
def hint (g : HangmanGame) : Option String :=
  if 3 ≤ g.wrong_guesses then
    List.lookup g.secret_word g.word_bank
  else
    none

/-- The message `format!("Starts with \x27{}\x27, ends with \x27{}\x27", first, last)`
built by `reveal_partial_word`, with `first` and `last` single characters. -/
def revealMsg (c d : Char) : String :=
  "Starts with \x27" ++ String.singleton c ++ "\x27, ends with \x27" ++
    String.singleton d ++ "\x27"

/-- Method `HangmanGame::reveal_partial_word`.  Rust slices bytes:
`&secret[0..1]` succeeds exactly when the first character is one byte wide,
and `&secret[len-1..]` exactly when byte position `len-1` is a character
boundary, i.e. the last character is one byte wide (`len` itself is always a
boundary).  A slice not on a boundary panics (`none`). -/
def reveal_partial_word (g : HangmanGame) : Option String :=
  if 2 < byteLen g.secret_word then
    match g.secret_word.toList.head?, g.secret_word.toList.getLast? with
    | some c, some d =>
      if charUtf8Len c = 1 ∧ charUtf8Len d = 1 then
        some (revealMsg c d)
      else
        none
    | _, _ => none
  else
    some "Word is too short for hints"

/-- The seven ASCII-art stages of `display_hangman`, in order. -/
def stages : List String :=
  ["\n            \n            \n            \n            \n            ",
   "\n            \n            \n            \n            \n            ========\n            ",
   "\n            |\n            |\n            |\n            |\n            |\n            ========\n            ",
   "\n            ______\n            |\n            |\n            |\n            |\n            |\n            ========\n            ",
   "\n            ______\n            |    |\n            |    O\n            |\n            |\n            |\n            ========\n            ",
   "\n            ______\n            |    |\n            |    O\n            |   /|\\\n            |\n            |\n            ========\n            ",
   "\n            ______\n            |    |\n            |    O\n            |   /|\\\n            |   / \\\n            |\n            ========\n            "]

/-- Rust `self.wrong_guesses as usize`: an `i32` cast to a 64-bit `usize`
(sign-extend, then reinterpret), i.e. the value modulo `2^64`. -/
def i32ToUsize (n : Int) : Nat :=
  (n % 2 ^ 64).toNat

/-- The index `std::cmp::min(self.wrong_guesses as usize, stages.len() - 1)`
computed by `display_hangman`. -/
def stage_index (g : HangmanGame) : Nat :=
  min (i32ToUsize g.wrong_guesses) (stages.length - 1)

/-- The stage string printed by `display_hangman`: `stages[stage_index]`.
The index is at most `stages.len() - 1`, so the access never panics;
`getD` with an arbitrary default is exact here. -/
def display_hangman (g : HangmanGame) : String :=
  stages.getD (stage_index g) ""

end HangmanGame

open HangmanGame

/-- Runs `process_guess` on each letter of `cs` in turn, propagating panics. -/
def runGuesses (g : HangmanGame) : List Char → Option HangmanGame
  | [] => some g
  | c :: cs =>
    match process_guess g c with
    | none => none
    | some (g', _) => runGuesses g' cs

/-- A state is reachable when some run of the program produces it: `new` on
some key iteration order (a permutation of the inserted keys), followed by
any sequence of `process_guess` calls that does not panic. -/
def Reachable (g : HangmanGame) : Prop :=
  ∃ order g0 cs, order.Perm bankKeys ∧ new order = some g0 ∧
    runGuesses g0 cs = some g

/-- One iteration of the guess-handling part of `main`'s loop: a letter
already in `guessed_letters` is rejected (`continue`, state unchanged);
otherwise `process_guess` runs. -/
def main_step (g : HangmanGame) (guess : Char) : Option HangmanGame :=
  if g.guessed_letters.contains guess then
    some g
  else
    (process_guess g guess).map Prod.fst

-- Sanity checks of the embedding on concrete inputs.
example : new bankKeys = some
    { secret_word := "SWIFT", display_word := ['_', '_', '_', '_', '_'],
      guessed_letters := [], wrong_guesses := 0, max_wrong := 6,
      word_bank := bankList } := by decide

example :
    (new bankKeys).bind (fun g => process_guess g 'S') = some
      ({ secret_word := "SWIFT", display_word := ['S', '_', '_', '_', '_'],
         guessed_letters := ['S'], wrong_guesses := 0, max_wrong := 6,
         word_bank := bankList }, true) := by decide

example :
    (new bankKeys).bind (fun g => process_guess g 'Z') = some
      ({ secret_word := "SWIFT", display_word := ['_', '_', '_', '_', '_'],
         guessed_letters := ['Z'], wrong_guesses := 1, max_wrong := 6,
         word_bank := bankList }, false) := by decide

/-! ## Characterization of the reveal loop and of `process_guess` -/

theorem guessLoop_eq_some (guess : Char) :
    ∀ (l : List Char) (i : Nat) (disp : List Char) (b : Bool)
      (out : List Char × Bool),
      guessLoop guess l i disp b = some out →
      out.2 = (b || l.contains guess) ∧ out.1.length = disp.length ∧
      ∀ k : Nat, out.1[k]? =
        if i ≤ k ∧ l[k - i]? = some guess then some guess else disp[k]? := by
  intro l
  induction l with
  | nil =>
    intro i disp b out h
    simp only [guessLoop, Option.some.injEq] at h
    subst h
    refine ⟨by simp, rfl, ?_⟩
    intro k
    simp
  | cons c t ih =>
    intro i disp b out h
    simp only [guessLoop] at h
    by_cases hc : c = guess
    · rw [if_pos hc] at h
      rcases Nat.lt_or_ge i disp.length with hi | hi
      · rw [if_pos hi] at h
        obtain ⟨h1, h2, h3⟩ := ih (i + 1) (disp.set i guess) true out h
        refine ⟨?_, ?_, ?_⟩
        · simp only [Bool.true_or] at h1
          simp [h1, List.contains_cons, hc]
        · rw [h2, List.length_set]
        · intro k
          rcases Nat.lt_trichotomy k i with hk | hk | hk
          · have hA : ¬ (i + 1 ≤ k ∧ t[k - (i + 1)]? = some guess) :=
              fun hh => by omega
            have hB : ¬ (i ≤ k ∧ (c :: t)[k - i]? = some guess) :=
              fun hh => by omega
            rw [h3 k, if_neg hA, if_neg hB, List.getElem?_set_ne (by omega)]
          · subst hk
            have hB : k ≤ k ∧ (c :: t)[k - k]? = some guess := by
              simp [Nat.sub_self, hc]
            rw [h3 k, if_neg (fun hh => by omega), if_pos hB,
              List.getElem?_set_self hi]
          · obtain ⟨m, hm⟩ : ∃ m, k - i = m + 1 := ⟨k - i - 1, by omega⟩
            have hm' : k - (i + 1) = m := by omega
            rw [h3 k, hm', List.getElem?_set_ne (by omega)]
            by_cases hg : t[m]? = some guess
            · rw [if_pos ⟨by omega, hg⟩, if_pos ⟨by omega, by
                rw [hm]; simpa using hg⟩]
            · rw [if_neg (fun hh => hg hh.2), if_neg (fun hh => by
                rw [hm] at hh
                exact hg (by simpa using hh.2))]
      · rw [if_neg (by omega)] at h
        exact absurd h (by simp)
    · rw [if_neg hc] at h
      obtain ⟨h1, h2, h3⟩ := ih (i + 1) disp b out h
      refine ⟨?_, h2, ?_⟩
      · rw [h1]
        simp [List.contains_cons, Ne.symm hc]
      · intro k
        rcases Nat.lt_trichotomy k i with hk | hk | hk
        · rw [h3 k, if_neg (fun hh => by omega), if_neg (fun hh => by omega)]
        · subst hk
          have hB : ¬ (k ≤ k ∧ (c :: t)[k - k]? = some guess) := by
            intro hh
            rw [Nat.sub_self] at hh
            exact hc (by simpa using hh.2)
          rw [h3 k, if_neg (fun hh => by omega), if_neg hB]
        · obtain ⟨m, hm⟩ : ∃ m, k - i = m + 1 := ⟨k - i - 1, by omega⟩
          have hm' : k - (i + 1) = m := by omega
          rw [h3 k, hm']
          by_cases hg : t[m]? = some guess
          · rw [if_pos ⟨by omega, hg⟩, if_pos ⟨by omega, by
              rw [hm]; simpa using hg⟩]
          · rw [if_neg (fun hh => hg hh.2), if_neg (fun hh => by
              rw [hm] at hh
              exact hg (by simpa using hh.2))]

theorem guessLoop_isSome (guess : Char) :
    ∀ (l : List Char) (i : Nat) (disp : List Char) (b : Bool),
      i + l.length ≤ disp.length → (guessLoop guess l i disp b).isSome := by
  intro l
  induction l with
  | nil =>
    intro i disp b _
    simp [guessLoop]
  | cons c t ih =>
    intro i disp b h
    simp only [List.length_cons] at h
    simp only [guessLoop]
    by_cases hc : c = guess
    · rw [if_pos hc, if_pos (by omega)]
      exact ih (i + 1) (disp.set i guess) true (by rw [List.length_set]; omega)
    · rw [if_neg hc]
      exact ih (i + 1) disp b (by omega)

theorem process_guess_spec (g : HangmanGame) (c : Char) (g' : HangmanGame)
    (b : Bool) (h : process_guess g c = some (g', b)) :
    g'.secret_word = g.secret_word ∧
    g'.max_wrong = g.max_wrong ∧
    g'.word_bank = g.word_bank ∧
    g'.guessed_letters = g.guessed_letters ++ [c] ∧
    (b = true ↔ c ∈ g.secret_word.toList) ∧
    g'.wrong_guesses =
      (if c ∈ g.secret_word.toList then g.wrong_guesses
       else g.wrong_guesses + 1) ∧
    (c ∉ g.secret_word.toList → g.wrong_guesses + 1 ≤ intMax32) ∧
    g'.display_word.length = g.display_word.length ∧
    ∀ k : Nat, g'.display_word[k]? =
      (if g.secret_word.toList[k]? = some c then some c
       else g.display_word[k]?) := by
  unfold process_guess at h
  split at h
  · exact absurd h (by simp)
  · rename_i disp correct heq
    obtain ⟨hcor, hlen, helem⟩ :=
      guessLoop_eq_some c _ 0 _ false (disp, correct) heq
    simp only [Bool.false_or] at hcor
    have hcor' : correct = true ↔ c ∈ g.secret_word.toList := by
      rw [hcor]; simp
    have helem' : ∀ k : Nat, disp[k]? =
        (if g.secret_word.toList[k]? = some c then some c
         else g.display_word[k]?) := by
      intro k
      have := helem k
      simpa using this
    by_cases hmem : c ∈ g.secret_word.toList
    · rw [if_pos (hcor'.mpr hmem)] at h
      simp only [Option.some.injEq, Prod.mk.injEq] at h
      obtain ⟨hg', hb⟩ := h
      subst hg'
      refine ⟨rfl, rfl, rfl, rfl, ⟨fun _ => hmem, fun _ => hb.symm⟩,
        ?_, ?_, ?_, ?_⟩
      · rw [if_pos hmem]
      · intro hcontra; exact absurd hmem hcontra
      · simpa using hlen
      · intro k; simpa using helem' k
    · have hcf : ¬ (correct = true) := fun hc2 => hmem (hcor'.mp hc2)
      rw [if_neg hcf] at h
      by_cases hov : intMax32 < g.wrong_guesses + 1
      · rw [if_pos hov] at h
        exact absurd h (by simp)
      · rw [if_neg hov] at h
        simp only [Option.some.injEq, Prod.mk.injEq] at h
        obtain ⟨hg', hb⟩ := h
        subst hg'
        refine ⟨rfl, rfl, rfl, rfl,
          ⟨fun hbt => absurd (hb.trans hbt) (by simp),
           fun hc => absurd hc hmem⟩, ?_, ?_, ?_, ?_⟩
        · rw [if_neg hmem]
        · intro _; omega
        · simpa using hlen
        · intro k; simpa using helem' k

/-! ## Facts about the word bank, and the reachability invariant -/

/-- The five bank words are ASCII (byte length = character count, every
character one byte wide, in particular first and last), longer than two
bytes, contain no placeholder `'_'`, and each has a description in the
bank. -/
theorem bank_word_facts : ∀ w ∈ bankKeys,
    byteLen w = w.toList.length ∧
    2 < byteLen w ∧
    (∀ ch ∈ w.toList, ch.toNat < 128 ∧ charUtf8Len ch = 1 ∧ ch ≠ '_') ∧
    w.toList.head?.isSome ∧
    w.toList.getLast?.isSome ∧
    charUtf8Len (w.toList.headD 'A') = 1 ∧
    charUtf8Len (w.toList.getLastD 'A') = 1 ∧
    (List.lookup w bankList).isSome := by
  decide

/-- Invariant holding in every reachable state. -/
def GameInv (g : HangmanGame) : Prop :=
  g.secret_word ∈ bankKeys ∧
  g.word_bank = bankList ∧
  g.max_wrong = 6 ∧
  0 ≤ g.wrong_guesses ∧
  g.wrong_guesses ≤ intMax32 ∧
  g.display_word.length = g.secret_word.toList.length ∧
  ∀ (k : Nat) (ck : Char), g.secret_word.toList[k]? = some ck →
    g.display_word[k]? = some (if ck ∈ g.guessed_letters then ck else '_')

theorem inv_new (order : List String) (g : HangmanGame)
    (hperm : order.Perm bankKeys) (h : new order = some g) :
    GameInv g ∧ g.guessed_letters = [] ∧ g.wrong_guesses = 0 := by
  unfold new at h
  split at h
  · exact absurd h (by simp)
  · rename_i w heq
    simp only [Option.some.injEq] at h
    subst h
    have hwmem : w ∈ bankKeys := hperm.mem_iff.mp (List.getElem?_mem heq)
    have hfacts := bank_word_facts w hwmem
    refine ⟨⟨hwmem, rfl, rfl, by norm_num, by norm_num [intMax32], ?_, ?_⟩,
      rfl, rfl⟩
    · simpa using hfacts.1
    · intro k ck hk
      have hklt : k < w.toList.length := (List.getElem?_eq_some.mp hk).1
      have : k < byteLen w := by rw [hfacts.1]; exact hklt
      simp [List.getElem?_replicate, this]

theorem inv_step (g g' : HangmanGame) (c : Char) (b : Bool) (hInv : GameInv g)
    (h : process_guess g c = some (g', b)) : GameInv g' := by
  obtain ⟨hsw, hmw, hwb, hgl, _, hwr, hov, hdl, hde⟩ :=
    process_guess_spec g c g' b h
  obtain ⟨iw, ib, im, iwr0, iwr1, idl, ide⟩ := hInv
  refine ⟨by rw [hsw]; exact iw, by rw [hwb]; exact ib, by rw [hmw]; exact im,
    ?_, ?_, ?_, ?_⟩
  · rw [hwr]; split <;> omega
  · rw [hwr]; split
    · exact iwr1
    · exact hov (by assumption)
  · rw [hdl, hsw]; exact idl
  · intro k ck hk
    rw [hsw] at hk
    rw [hde k, hgl]
    by_cases hck : ck = c
    · subst hck
      rw [if_pos hk, if_pos (by simp)]
    · have hne : g.secret_word.toList[k]? ≠ some c := by
        rw [hk]; simp [hck]
      rw [if_neg hne, ide k ck hk]
      have hmemiff : (ck ∈ g.guessed_letters ++ [c]) ↔
          ck ∈ g.guessed_letters := by
        simp [hck]
      by_cases hmem2 : ck ∈ g.guessed_letters
      · rw [if_pos hmem2, if_pos (hmemiff.mpr hmem2)]
      · rw [if_neg hmem2, if_neg (fun hcontra => hmem2 (hmemiff.mp hcontra))]

theorem inv_run : ∀ (cs : List Char) (g g' : HangmanGame), GameInv g →
    runGuesses g cs = some g' →
    GameInv g' ∧ g'.guessed_letters = g.guessed_letters ++ cs ∧
    g'.secret_word = g.secret_word ∧ g'.word_bank = g.word_bank ∧
    g'.max_wrong = g.max_wrong ∧ g.wrong_guesses ≤ g'.wrong_guesses := by
  intro cs
  induction cs with
  | nil =>
    intro g g' hInv h
    simp only [runGuesses, Option.some.injEq] at h
    subst h
    exact ⟨hInv, by simp, rfl, rfl, rfl, le_refl _⟩
  | cons c cs ih =>
    intro g g' hInv h
    simp only [runGuesses] at h
    split at h
    · exact absurd h (by simp)
    · rename_i g1 b heq
      obtain ⟨hsw1, hmw1, hwb1, hgl, _, hwr, _, _, _⟩ :=
        process_guess_spec g c g1 b heq
      have hInv1 : GameInv g1 := inv_step g g1 c b hInv heq
      obtain ⟨jInv, jgl, jsw, jwb, jmw, jwr⟩ := ih g1 g' hInv1 h
      refine ⟨jInv, ?_, by rw [jsw, hsw1], by rw [jwb, hwb1],
        by rw [jmw, hmw1], ?_⟩
      · rw [jgl, hgl, List.append_assoc, List.singleton_append]
      · rw [hwr] at jwr
        split at jwr <;> omega

theorem reachable_inv (g : HangmanGame) (h : Reachable g) : GameInv g := by
  obtain ⟨order, g0, cs, hperm, hnew, hrun⟩ := h
  exact (inv_run cs g0 g (inv_new order g0 hperm hnew).1 hrun).1

/-! ## Shared helper lemmas and concrete runs -/

/-- For any admissible key iteration order, `new` succeeds and picks the key
at index 2 of the order. -/
theorem new_eq_some_third (order : List String) (hperm : order.Perm bankKeys) :
    ∃ w, order[2]? = some w ∧ w ∈ bankKeys ∧
      new order = some { secret_word := w
                         display_word := List.replicate (byteLen w) '_'
                         guessed_letters := []
                         wrong_guesses := 0
                         max_wrong := 6
                         word_bank := bankList } := by
  cases hw : order[2]? with
  | none =>
    exfalso
    have hle : order.length ≤ 2 := List.getElem?_eq_none_iff.mp hw
    have h5 : bankKeys.length = 5 := by decide
    rw [hperm.length_eq, h5] at hle
    omega
  | some w =>
    refine ⟨w, rfl, hperm.mem_iff.mp (List.getElem?_mem hw), ?_⟩
    unfold new
    rw [hw]

/-- In any state satisfying the invariant, `reveal_partial_word` succeeds and
names the first and last characters of the secret word. -/
theorem reveal_eq_some_of_inv (g : HangmanGame) (hInv : GameInv g) :
    2 < byteLen g.secret_word ∧
    reveal_partial_word g =
      some (revealMsg (g.secret_word.toList.headD 'A')
        (g.secret_word.toList.getLastD 'A')) := by
  obtain ⟨iw, _, _, _, _, _, _⟩ := hInv
  have hf := bank_word_facts g.secret_word iw
  obtain ⟨c, hc⟩ := Option.isSome_iff_exists.mp hf.2.2.2.1
  obtain ⟨d, hd⟩ := Option.isSome_iff_exists.mp hf.2.2.2.2.1
  have hcD : g.secret_word.toList.headD 'A' = c := by
    rw [List.headD_eq_head?_getD, hc]; rfl
  have hdD : g.secret_word.toList.getLastD 'A' = d := by
    have h2 : g.secret_word.toList.getLastD 'A' =
        g.secret_word.toList.getLast?.getD 'A' := by
      cases g.secret_word.toList <;> simp [List.getLastD_eq_getLast?]
    rw [h2, hd]; rfl
  have hifc : charUtf8Len c = 1 := by rw [← hcD]; exact hf.2.2.2.2.2.1
  have hifd : charUtf8Len d = 1 := by rw [← hdD]; exact hf.2.2.2.2.2.2.1
  refine ⟨hf.2.1, ?_⟩
  unfold reveal_partial_word
  rw [if_pos hf.2.1, hcD, hdD]
  simp only [hc, hd]
  rw [if_pos ⟨hifc, hifd⟩]

/-- The initial state of the run whose key iteration order is the insertion
order: the secret word is SWIFT, as the source comment expects. -/
def gSwift : HangmanGame :=
  { secret_word := "SWIFT"
    display_word := ['_', '_', '_', '_', '_']
    guessed_letters := []
    wrong_guesses := 0
    max_wrong := 6
    word_bank := bankList }

theorem reachable_of_run (cs : List Char) (g : HangmanGame)
    (h : runGuesses gSwift cs = some g) : Reachable g :=
  ⟨bankKeys, gSwift, cs, List.Perm.refl _, by decide, h⟩

theorem reachable_gSwift : Reachable gSwift :=
  reachable_of_run [] gSwift rfl

/-- `gSwift` after guessing S. -/
def gSwiftS : HangmanGame :=
  { gSwift with display_word := ['S', '_', '_', '_', '_'],
                guessed_letters := ['S'] }

theorem reachable_gSwiftS : Reachable gSwiftS :=
  reachable_of_run ['S'] gSwiftS (by decide)

/-- `gSwift` after the three wrong guesses Z, X, Q. -/
def gSwift3 : HangmanGame :=
  { gSwift with guessed_letters := ['Z', 'X', 'Q'], wrong_guesses := 3 }

theorem reachable_gSwift3 : Reachable gSwift3 :=
  reachable_of_run ['Z', 'X', 'Q'] gSwift3 (by decide)

/-- `gSwift3` after guessing Z a second time. -/
def gSwift3Z : HangmanGame :=
  { gSwift with guessed_letters := ['Z', 'X', 'Q', 'Z'], wrong_guesses := 4 }

/-- `gSwift` after the six wrong guesses Z, X, Q, B, N, M: a lost state. -/
def gLost6 : HangmanGame :=
  { gSwift with guessed_letters := ['Z', 'X', 'Q', 'B', 'N', 'M'],
                wrong_guesses := 6 }

theorem reachable_gLost6 : Reachable gLost6 :=
  reachable_of_run ['Z', 'X', 'Q', 'B', 'N', 'M'] gLost6 (by decide)

/-- `gLost6` after one more wrong guess A. -/
def gLost7 : HangmanGame :=
  { gSwift with guessed_letters := ['Z', 'X', 'Q', 'B', 'N', 'M', 'A'],
                wrong_guesses := 7 }

/-! ## Claim theorems -/

/-- C1: for every game state and letter, a (non-panicking) call
`process_guess(letter)` appends the letter to `guessed_letters`; sets
`display_word[i]` to the letter at every position `i` where the secret
word's `i`-th character equals the letter (and touches no other position);
increments `wrong_guesses` by exactly 1 iff the letter occurs at no
position of `secret_word` (leaving it unchanged otherwise); and returns
`true` iff the letter occurs at at least one position. -/
theorem process_guess_effects (g : HangmanGame) (c : Char)
    (g' : HangmanGame) (b : Bool) (h : process_guess g c = some (g', b)) :
    g'.guessed_letters = g.guessed_letters ++ [c] ∧
    (∀ k : Nat, g.secret_word.toList[k]? = some c →
      g'.display_word[k]? = some c) ∧
    (∀ k : Nat, g.secret_word.toList[k]? ≠ some c →
      g'.display_word[k]? = g.display_word[k]?) ∧
    (g'.wrong_guesses = g.wrong_guesses + 1 ↔ c ∉ g.secret_word.toList) ∧
    (c ∈ g.secret_word.toList → g'.wrong_guesses = g.wrong_guesses) ∧
    (b = true ↔ c ∈ g.secret_word.toList) := by
  obtain ⟨_, _, _, hgl, hb, hwr, _, _, hde⟩ := process_guess_spec g c g' b h
  refine ⟨hgl, ?_, ?_, ?_, ?_, hb⟩
  · intro k hk
    rw [hde k, if_pos hk]
  · intro k hk
    rw [hde k, if_neg hk]
  · rw [hwr]
    by_cases hmem : c ∈ g.secret_word.toList
    · rw [if_pos hmem]
      constructor
      · intro hcontra
        exact absurd hcontra (by omega)
      · intro hno
        exact absurd hmem hno
    · rw [if_neg hmem]
      exact ⟨fun _ => hmem, fun _ => rfl⟩
  · intro hmem
    rw [hwr, if_pos hmem]

theorem process_guess_effects_witness :
    gSwiftS.guessed_letters = gSwift.guessed_letters ++ ['S'] ∧
    gSwiftS.display_word[0]? = some 'S' ∧
    gSwiftS.display_word[1]? = gSwift.display_word[1]? ∧
    gSwiftS.wrong_guesses = gSwift.wrong_guesses ∧
    (true = true ↔ 'S' ∈ gSwift.secret_word.toList) := by
  have h := process_guess_effects gSwift 'S' gSwiftS true (by decide)
  exact ⟨h.1, h.2.1 0 (by decide), h.2.2.1 1 (by decide),
    h.2.2.2.2.1 (by decide), h.2.2.2.2.2⟩

/-- C2: in every state reachable from `new` by a sequence `cs` of
`process_guess` calls, `display_word` has the same length as the secret
word, and `display_word[k]` is a non-placeholder (not the character
underscore) exactly when the `k`-th letter of the secret word was passed
to `process_guess` at least once. -/
theorem display_word_invariant (order : List String) (g0 g : HangmanGame)
    (cs : List Char) (hperm : order.Perm bankKeys)
    (hnew : new order = some g0) (hrun : runGuesses g0 cs = some g) :
    g.display_word.length = g.secret_word.toList.length ∧
    ∀ (k : Nat) (ck : Char), g.secret_word.toList[k]? = some ck →
      (g.display_word[k]? ≠ some '_' ↔ ck ∈ cs) := by
  obtain ⟨hInv0, hgl0, _⟩ := inv_new order g0 hperm hnew
  obtain ⟨jInv, jgl, _, _, _, _⟩ := inv_run cs g0 g hInv0 hrun
  obtain ⟨iw, _, _, _, _, idl, ide⟩ := jInv
  refine ⟨idl, ?_⟩
  intro k ck hk
  have hckmem : ck ∈ g.secret_word.toList := List.getElem?_mem hk
  have hckne : ck ≠ '_' :=
    ((bank_word_facts g.secret_word iw).2.2.1 ck hckmem).2.2
  have hgcs : g.guessed_letters = cs := by
    rw [jgl, hgl0]; simp
  rw [ide k ck hk, hgcs]
  by_cases hmem : ck ∈ cs
  · rw [if_pos hmem]
    simp [hckne, hmem]
  · rw [if_neg hmem]
    simp [hmem]

theorem display_word_invariant_witness :
    gSwiftS.display_word.length = gSwiftS.secret_word.toList.length ∧
    (gSwiftS.display_word[0]? ≠ some '_' ↔ 'S' ∈ ['S']) ∧
    (gSwiftS.display_word[1]? ≠ some '_' ↔ 'W' ∈ ['S']) := by
  have h := display_word_invariant bankKeys gSwift gSwiftS ['S']
    (List.Perm.refl _) (by decide) (by decide)
  exact ⟨h.1, h.2 0 'S' (by decide), h.2 1 'W' (by decide)⟩

/-- C3: for every game state, `is_won` returns true exactly when no
position of `display_word` holds the placeholder underscore. -/
theorem is_won_iff_no_placeholder (g : HangmanGame) :
    is_won g = true ↔ ∀ k : Nat, g.display_word[k]? ≠ some '_' := by
  unfold is_won
  constructor
  · intro h k hk
    have hmem : '_' ∈ g.display_word := List.getElem?_mem hk
    simp at h
    exact h hmem
  · intro h
    simp
    intro hmem
    obtain ⟨n, hn⟩ := List.getElem_of_mem hmem
    exact h n (by rw [List.getElem?_eq_some]; exact ⟨hn.1, hn.2⟩) 

/-- C4: in every reachable state, `is_lost` returns true exactly when
`wrong_guesses` is at least 6 (`max_wrong`); and `process_guess` never
decreases `wrong_guesses`, so once `is_lost` holds it still holds after
any further (non-panicking) `process_guess` call. -/
theorem is_lost_iff_and_persists (g : HangmanGame) (h : Reachable g) :
    (is_lost g = true ↔ 6 ≤ g.wrong_guesses) ∧
    ∀ (c : Char) (g' : HangmanGame) (b : Bool),
      process_guess g c = some (g', b) →
      g.wrong_guesses ≤ g'.wrong_guesses ∧
      (is_lost g = true → is_lost g' = true) := by
  obtain ⟨_, _, im, _, _, _, _⟩ := reachable_inv g h
  have hiff : is_lost g = true ↔ 6 ≤ g.wrong_guesses := by
    unfold is_lost
    rw [im]
    simp
  refine ⟨hiff, ?_⟩
  intro c g' b hpg
  obtain ⟨_, hmw, _, _, _, hwr, _, _, _⟩ := process_guess_spec g c g' b hpg
  have hmono : g.wrong_guesses ≤ g'.wrong_guesses := by
    rw [hwr]; split <;> omega
  refine ⟨hmono, ?_⟩
  intro hl
  rw [hiff] at hl
  unfold is_lost
  rw [hmw, im]
  simp
  omega

theorem is_lost_iff_and_persists_witness :
    (is_lost gLost6 = true ↔ 6 ≤ gLost6.wrong_guesses) ∧
    (gLost6.wrong_guesses ≤ gLost7.wrong_guesses ∧
     (is_lost gLost6 = true → is_lost gLost7 = true)) := by
  have h := is_lost_iff_and_persists gLost6 reachable_gLost6
  exact ⟨h.1, h.2 'A' gLost7 false (by decide)⟩

/-- C5 counterexample: the secret word is NOT independent of the run.  Two
admissible runs — two key iteration orders, both permutations of the
inserted keys, as `HashMap` key order is unspecified — construct states
with different secret words (SWIFT versus RUST). -/
theorem new_not_deterministic_counterexample :
    List.Perm ["RUST", "JAVA", "SWIFT", "PYTHON", "GOLANG"] bankKeys ∧
    List.Perm ["SWIFT", "JAVA", "RUST", "PYTHON", "GOLANG"] bankKeys ∧
    (new ["RUST", "JAVA", "SWIFT", "PYTHON", "GOLANG"]).map
      HangmanGame.secret_word = some "SWIFT" ∧
    (new ["SWIFT", "JAVA", "RUST", "PYTHON", "GOLANG"]).map
      HangmanGame.secret_word = some "RUST" ∧
    ("SWIFT" : String) ≠ "RUST" := by
  refine ⟨by decide, by decide, by decide, by decide, by decide⟩

/-- C5 (amended): `new` is deterministic only relative to the `HashMap` key
iteration order: every run sets the secret word to the key at index 2 of
its iteration order (always one of the five bank words), so two runs agree
exactly when their iteration orders agree at index 2 — which is not
guaranteed, since `HashMap` iteration order is unspecified. -/
theorem new_secret_is_third_key (order : List String)
    (hperm : order.Perm bankKeys) :
    ∃ g, new order = some g ∧ some g.secret_word = order[2]? ∧
      g.secret_word ∈ bankKeys := by
  obtain ⟨w, hw, hmem, hnew⟩ := new_eq_some_third order hperm
  exact ⟨_, hnew, by rw [hw], hmem⟩

theorem new_secret_is_third_key_witness :
    (new bankKeys).map HangmanGame.secret_word = some "SWIFT" := by
  obtain ⟨g, hg, hsw, _⟩ := new_secret_is_third_key bankKeys (List.Perm.refl _)
  have h2 : bankKeys[2]? = some "SWIFT" := by decide
  rw [h2] at hsw
  rw [hg]
  simpa using hsw

/-- C6: in every reachable state the hint is produced exactly when
`wrong_guesses` is at least 3: below the threshold no hint text is
returned, and from the threshold on the hint is the word bank's
description for the secret word (which always exists). -/
theorem hint_iff_three_wrong (g : HangmanGame) (h : Reachable g) :
    (g.wrong_guesses < 3 → hint g = none) ∧
    (3 ≤ g.wrong_guesses →
      hint g = List.lookup g.secret_word bankList ∧
      (List.lookup g.secret_word bankList).isSome) := by
  obtain ⟨iw, ib, _, _, _, _, _⟩ := reachable_inv g h
  constructor
  · intro hlt
    unfold hint
    rw [if_neg (by omega)]
  · intro hge
    unfold hint
    rw [if_pos hge, ib]
    exact ⟨rfl, (bank_word_facts g.secret_word iw).2.2.2.2.2.2.2⟩

theorem hint_iff_three_wrong_witness :
    hint gSwift = none ∧
    hint gSwift3 = some "Apple\x27s programming language" := by
  constructor
  · exact (hint_iff_three_wrong gSwift reachable_gSwift).1 (by decide)
  · have h2 := ((hint_iff_three_wrong gSwift3 reachable_gSwift3).2
      (by decide)).1
    rw [h2]
    decide

/-- C7: in every reachable state the secret word is longer than two bytes
and `reveal_partial_word` returns the message naming its first and last
letters; for any state whose secret word is at most two bytes it returns
the fixed too-short message; and the result depends only on `secret_word`
(the embedding is a pure function of the state, so nothing is mutated). -/
theorem reveal_partial_word_spec (g : HangmanGame) (h : Reachable g) :
    (2 < byteLen g.secret_word ∧
     reveal_partial_word g =
       some (revealMsg (g.secret_word.toList.headD 'A')
         (g.secret_word.toList.getLastD 'A'))) ∧
    (∀ g2 : HangmanGame, byteLen g2.secret_word ≤ 2 →
      reveal_partial_word g2 = some "Word is too short for hints") ∧
    (∀ g2 : HangmanGame, g2.secret_word = g.secret_word →
      reveal_partial_word g2 = reveal_partial_word g) := by
  refine ⟨reveal_eq_some_of_inv g (reachable_inv g h), ?_, ?_⟩
  · intro g2 hle
    unfold reveal_partial_word
    rw [if_neg (by omega)]
  · intro g2 hsw
    unfold reveal_partial_word
    rw [hsw]

theorem reveal_partial_word_spec_witness :
    (2 < byteLen gSwift.secret_word ∧
     reveal_partial_word gSwift =
       some (revealMsg (gSwift.secret_word.toList.headD 'A')
         (gSwift.secret_word.toList.getLastD 'A'))) ∧
    reveal_partial_word gSwift = some "Starts with \x27S\x27, ends with \x27T\x27" := by
  have h := reveal_partial_word_spec gSwift reachable_gSwift
  refine ⟨h.1, ?_⟩
  rw [h.1.2]
  decide

/-- C8: there are exactly 7 fixed ASCII-art stages, and in every reachable
state the stage displayed is the one at index `min(wrong_guesses, 6)`. -/
theorem display_hangman_stage_spec :
    stages.length = 7 ∧
    ∀ g : HangmanGame, Reachable g →
      stage_index g = min g.wrong_guesses.toNat 6 ∧
      display_hangman g = stages.getD (min g.wrong_guesses.toNat 6) "" := by
  refine ⟨rfl, ?_⟩
  intro g h
  obtain ⟨_, _, _, iwr0, iwr1, _, _⟩ := reachable_inv g h
  have hmod : g.wrong_guesses % 2 ^ 64 = g.wrong_guesses :=
    Int.emod_eq_of_lt iwr0 (by unfold intMax32 at iwr1; omega)
  have hcast : i32ToUsize g.wrong_guesses = g.wrong_guesses.toNat := by
    unfold i32ToUsize
    rw [hmod]
  have h7 : stages.length - 1 = 6 := rfl
  constructor
  · unfold stage_index
    rw [hcast, h7]
  · unfold display_hangman stage_index
    rw [hcast, h7]

theorem display_hangman_stage_spec_witness :
    stages.length = 7 ∧
    stage_index gSwift3 = min gSwift3.wrong_guesses.toNat 6 ∧
    display_hangman gSwift3 =
      stages.getD (min gSwift3.wrong_guesses.toNat 6) "" := by
  have h := display_hangman_stage_spec
  have h2 := h.2 gSwift3 reachable_gSwift3
  exact ⟨h.1, h2.1, h2.2⟩

/-- C9: `process_guess` makes no duplicate check of its own: for a letter
already guessed, a (non-panicking) call still appends a second copy to
`guessed_letters` (its count reaches at least 2) and, when the letter is in
no position of the secret word, increments `wrong_guesses` again; the only
duplicate rejection is the containment check in the main loop, which leaves
the state unchanged. -/
theorem process_guess_no_duplicate_check (g : HangmanGame) (c : Char)
    (hdup : c ∈ g.guessed_letters) :
    main_step g c = some g ∧
    ∀ (g' : HangmanGame) (b : Bool), process_guess g c = some (g', b) →
      g'.guessed_letters = g.guessed_letters ++ [c] ∧
      2 ≤ g'.guessed_letters.count c ∧
      (c ∉ g.secret_word.toList →
        g'.wrong_guesses = g.wrong_guesses + 1) := by
  constructor
  · unfold main_step
    rw [if_pos (by simpa using hdup)]
  · intro g' b hpg
    obtain ⟨_, _, _, hgl, _, hwr, _, _, _⟩ := process_guess_spec g c g' b hpg
    refine ⟨hgl, ?_, ?_⟩
    · rw [hgl, List.count_append]
      have h1 : 0 < g.guessed_letters.count c := List.count_pos_iff.mpr hdup
      have h2 : List.count c [c] = 1 := by simp
      omega
    · intro hno
      rw [hwr, if_neg hno]

theorem process_guess_no_duplicate_check_witness :
    main_step gSwift3 'Z' = some gSwift3 ∧
    gSwift3Z.guessed_letters = gSwift3.guessed_letters ++ ['Z'] ∧
    2 ≤ gSwift3Z.guessed_letters.count 'Z' ∧
    gSwift3Z.wrong_guesses = gSwift3.wrong_guesses + 1 := by
  have h := process_guess_no_duplicate_check gSwift3 'Z' (by decide)
  have h2 := h.2 gSwift3Z false (by decide)
  exact ⟨h.1, h2.1, h2.2.1, h2.2.2 (by decide)⟩

/-- C10: every indexing and slicing operation of the program is in bounds:
the word bank has exactly 5 keys, so `words[2]` in `new` succeeds for every
admissible key order; in every reachable state the reveal loop of
`process_guess` performs no out-of-bounds `display_word[i]` write (the
display has as many cells as the secret word has characters); every bank
word is ASCII, so character positions coincide with byte positions; and the
byte slices of `reveal_partial_word` fall on character boundaries, so it
returns a value.  None of these operations panics. -/
theorem indexing_in_bounds :
    bankKeys.length = 5 ∧
    (∀ order : List String, order.Perm bankKeys → (new order).isSome) ∧
    (∀ (g : HangmanGame) (c : Char), Reachable g →
      (guessLoop c g.secret_word.toList 0 g.display_word false).isSome) ∧
    (∀ w ∈ bankKeys, byteLen w = w.toList.length ∧
      ∀ ch ∈ w.toList, ch.toNat < 128) ∧
    (∀ g : HangmanGame, Reachable g → (reveal_partial_word g).isSome) := by
  refine ⟨rfl, ?_, ?_, ?_, ?_⟩
  · intro order hperm
    obtain ⟨w, _, _, hnew⟩ := new_eq_some_third order hperm
    rw [hnew]
    rfl
  · intro g c h
    obtain ⟨_, _, _, _, _, idl, _⟩ := reachable_inv g h
    exact guessLoop_isSome c _ 0 _ false (by rw [idl]; omega)
  · intro w hw
    have hf := bank_word_facts w hw
    exact ⟨hf.1, fun ch hch => (hf.2.2.1 ch hch).1⟩
  · intro g h
    rw [(reveal_eq_some_of_inv g (reachable_inv g h)).2]
    rfl

theorem indexing_in_bounds_witness :
    (new bankKeys).isSome ∧
    (guessLoop 'S' gSwift.secret_word.toList 0 gSwift.display_word
      false).isSome ∧
    (byteLen "SWIFT" = "SWIFT".toList.length) ∧
    (reveal_partial_word gSwift).isSome := by
  have h := indexing_in_bounds
  exact ⟨h.2.1 bankKeys (List.Perm.refl _),
    h.2.2.1 gSwift 'S' reachable_gSwift,
    (h.2.2.2.1 "SWIFT" (by decide)).1,
    h.2.2.2.2 gSwift reachable_gSwift⟩
